import Mathlib

/-!
Verification of the schedule reduction engine of the UHasselt schedule
optimizer (`src/main.py`, class `UHasseltScheduleOptimizer`): the group
classifier (`detect_group` and `_load_group_rules`), the course grouper
(`group_events_by_course`), the selector (`select_optimal_event`) and the
reduction pipeline (`optimize_schedule`), shallowly embedded as Lean
functions over an explicit data model.

Modelling notes:
* Event text (`title`, `description`) is `List Char`; classification is
  case-insensitive, modelled by lower-casing the search text with
  `Char.toLower` (the source uses `re.IGNORECASE`; for the ASCII patterns
  of the rule table the two agree).
* The `re.search` calls over the fixed patterns of `_load_group_rules` are
  embedded per pattern shape: `(groep|Group)\s*X` (ignore-case) holds iff
  at some position the lower-cased text has the word `groep` or `group`,
  then any run of whitespace, then the letter `x`; `all|alle` holds iff
  the text contains `all` (the alternative `alle` is subsumed by `all`);
  the `N/A` pattern is a literal brace-delimited substring test.
* The course-code match `^(\d+)\s*-\s*` succeeds iff the title starts
  with a nonempty digit run whose maximal extent is followed, after the
  maximal run of whitespace, by a dash: a shorter (backtracked) digit
  prefix is followed by a digit, which is neither whitespace nor a dash,
  and the dash cannot sit before the end of the whitespace run, so
  greediness is equivalent to the maximal-run reading; the trailing
  `\s*` always matches and constrains nothing.
* Timestamps (`event.begin`, `event.end`) are modelled as an integer
  instant plus a weekday (`Arrow.weekday()` in Python: Monday = 0 ..
  Sunday = 6); `min`/`max` with a key in Python keep the first element
  attaining the extremum, which `minByBegin`/`maxByBegin` reproduce.
* The configuration dict is a record of optional fields, one per key the
  engine reads; `dict.get(k, d)` is `Option.getD`, `dict.get(k)` is the
  raw `Option`.
* `optimize_schedule` in the source assembles the ordered list
  `optimized_events` and then pours it into a fresh `Calendar` for
  serialization; the core result modelled here is that ordered list.
-/

namespace ScheduleOptimizer

/-- A point in time as the engine observes it: a totally ordered instant
and the civil weekday (Monday = 0 .. Sunday = 6) that `Arrow.weekday()`
reports for it. -/
structure Timestamp where
  instant : Int
  weekday : Nat
  deriving DecidableEq, Repr

/-- One calendar occurrence as parsed from the feed (`ics.Event`): the
fields the reduction engine reads. `name` is the event summary/title. -/
structure Event where
  name : List Char
  description : Option (List Char)
  location : Option (List Char)
  begin : Timestamp
  ends : Timestamp
  deriving DecidableEq, Repr

/-- The configuration dictionary (`config.json` contents), restricted to
the keys the engine reads; a `none` field is an absent key. -/
structure Config where
  preferred_group : Option String
  fallback_group_behavior : Option String
  optimization_mode : Option String
  skip_weekends : Option Bool
  deriving DecidableEq, Repr

/-- `config.get("preferred_group", "A")`. -/
def Config.preferredGroup (cfg : Config) : String :=
  cfg.preferred_group.getD "A"

/-- `config.get("optimization_mode", "earliest_lesson")`. -/
def Config.optimizationMode (cfg : Config) : String :=
  cfg.optimization_mode.getD "earliest_lesson"

/-- `config.get("skip_weekends", True)`. -/
def Config.skipWeekends (cfg : Config) : Bool :=
  cfg.skip_weekends.getD true

/-- The characters that `\s` matches on ASCII text in Python. -/
def isSpaceChar (c : Char) : Bool :=
  c = ' ' || c = '\t' || c = '\n' || c = '\r' || c = '\x0b' || c = '\x0c'

/-- Lower-case a text, modelling `re.IGNORECASE` on ASCII patterns. -/
def lc (s : List Char) : List Char :=
  s.map Char.toLower

/-- `isPre w t`: the text `t` starts with the word `w`. -/
def isPre : List Char → List Char → Bool
  | [], _ => true
  | _ :: _, [] => false
  | a :: as, b :: bs => a = b && isPre as bs

/-- The text starts with the character `c`. -/
def headEq (c : Char) : List Char → Bool
  | [] => false
  | x :: _ => x = c

/-- `re.search`: some suffix position of the text (including the empty
final position) satisfies the anchored matcher `p`. -/
def searchPos (p : List Char → Bool) : List Char → Bool
  | [] => p []
  | x :: xs => p (x :: xs) || searchPos p xs

/-- The three regex shapes occurring in `_load_group_rules`. -/
inductive Pat where
  | letterPat (c : Char) : Pat
  | allPat : Pat
  | naPat : Pat
  deriving DecidableEq, Repr

/-- Anchored match of `(groep|group)\s*c` at the head of a lower-cased
text (both alternative words have length 5). -/
def matchLetterHere (c : Char) (t : List Char) : Bool :=
  (isPre ("groep".data) t || isPre ("group".data) t)
    && headEq c ((t.drop 5).dropWhile isSpaceChar)

/-- `re.search(rule.regex, text, re.IGNORECASE)` on a lower-cased text,
per pattern shape. -/
def matchPat : Pat → List Char → Bool
  | Pat.letterPat c, t => searchPos (matchLetterHere c) t
  | Pat.allPat, t => searchPos (isPre ("all".data)) t
  | Pat.naPat, t => searchPos (isPre ("\x7bn/a\x7d".data)) t

/-- `_load_group_rules` (src/main.py:54-64): the ordered rule table,
first match wins. -/
def group_detection_rules : List (Pat × String) :=
  [(Pat.letterPat 'a', "A"), (Pat.letterPat 'b', "B"), (Pat.letterPat 'c', "C"),
   (Pat.letterPat 'd', "D"), (Pat.letterPat 'e', "E"),
   (Pat.allPat, "ALL"), (Pat.naPat, "NA")]

/-- The rule loop of `detect_group`: return the label of the first rule
whose pattern matches, else `UNKNOWN`. -/
def firstMatch : List (Pat × String) → List Char → String
  | [], _ => "UNKNOWN"
  | r :: rest, t => if matchPat r.1 t then r.2 else firstMatch rest t

/-- The search text of `detect_group`:
the title, a space, then the description (absent or null description
contributing nothing), lower-cased. -/
def analyzedText (e : Event) : List Char :=
  lc (e.name ++ ' ' :: e.description.getD [])

/-- `detect_group` (src/main.py:102-110). -/
def detect_group (e : Event) : String :=
  firstMatch group_detection_rules (analyzedText e)

/-- The course-key extraction of `group_events_by_course`:
a `re.match` of `^(\d+)\s*-\s*` against the title, with the captured digit run as
key and `UNKNOWN` when the match fails (see the module comment for the
equivalence with the greedy regex). -/
def courseKeyOf (name : List Char) : String :=
  let digits := name.takeWhile Char.isDigit
  if digits = [] then "UNKNOWN"
  else if headEq '-' ((name.dropWhile Char.isDigit).dropWhile isSpaceChar) then
    String.mk digits
  else "UNKNOWN"

/-- One step of the dict insertion in `group_events_by_course`: append
the event to the list of its key, creating the entry at the end on a new key
(CPython dicts preserve insertion order). -/
def insertEvent : List (String × List Event) → String → Event → List (String × List Event)
  | [], key, e => [(key, [e])]
  | (k, es) :: rest, key, e =>
    if k = key then (k, es ++ [e]) :: rest
    else (k, es) :: insertEvent rest key e

/-- `group_events_by_course` (src/main.py:112-129), as an
insertion-ordered association list. -/
def group_events_by_course (events : List Event) : List (String × List Event) :=
  events.foldl (fun gs e => insertEvent gs (courseKeyOf e.name) e) []

/-- The candidate-set computation of `select_optimal_event`
(src/main.py:136-153): preferred-label members if any, otherwise the
fallback dictated by `fallback_group_behavior`. -/
def events_to_choose_from (cfg : Config) (events : List Event) : List Event :=
  let events_with_groups := events.map (fun e => (e, detect_group e))
  let preferred_events :=
    (events_with_groups.filter (fun p => p.2 = cfg.preferredGroup)).map (fun p => p.1)
  if preferred_events ≠ [] then preferred_events
  else if cfg.fallback_group_behavior = some "use_all_if_missing" then
    let all_labeled :=
      (events_with_groups.filter (fun p => p.2 = "ALL")).map (fun p => p.1)
    if all_labeled = [] then events_with_groups.map (fun p => p.1)
    else all_labeled
  else events_with_groups.map (fun p => p.1)

/-- Python `min(l, key=lambda e: e.begin)` over `best :: rest`: replace
the running best only on a strictly smaller key, keeping the first
element attaining the minimum. -/
def minByBegin : Event → List Event → Event
  | best, [] => best
  | best, x :: xs =>
    if x.begin.instant < best.begin.instant then minByBegin x xs
    else minByBegin best xs

/-- Python `max(l, key=lambda e: e.begin)` over `best :: rest`: replace
the running best only on a strictly larger key, keeping the first
element attaining the maximum. -/
def maxByBegin : Event → List Event → Event
  | best, [] => best
  | best, x :: xs =>
    if best.begin.instant < x.begin.instant then maxByBegin x xs
    else maxByBegin best xs

/-- `select_optimal_event` (src/main.py:131-166): `None` on an empty
cluster, else the extremum of the candidate set under `optimization_mode`
(`events[0]` if the candidate set were empty). -/
def select_optimal_event (cfg : Config) (events : List Event) : Option Event :=
  match events with
  | [] => none
  | e0 :: _ =>
    match events_to_choose_from cfg events with
    | [] => some e0
    | c :: cs =>
      if cfg.optimizationMode = "earliest_lesson" then some (minByBegin c cs)
      else if cfg.optimizationMode = "latest_lesson" then some (maxByBegin c cs)
      else some c

/-- `should_skip_weekend` (src/main.py:168-174): Saturday (5) and Sunday
(6) are skipped when `skip_weekends` is on. -/
def should_skip_weekend (cfg : Config) (e : Event) : Bool :=
  if cfg.skipWeekends = false then false
  else decide (e.begin.weekday ≥ 5)

/-- `optimize_schedule` (src/main.py:176-200), as the ordered
`optimized_events` list it assembles: weekend filter, course grouping,
one selection per cluster (`filterMap` reflects the `if optimal_event:`
guard before appending). -/
def optimize_schedule (cfg : Config) (events : List Event) : List Event :=
  let filtered := events.filter (fun e => ! should_skip_weekend cfg e)
  let course_groups := group_events_by_course filtered
  course_groups.filterMap (fun kg => select_optimal_event cfg kg.2)

/-- The distinct members of a key sequence in first-seen order (the
CourseKey encounter order of the specification). -/
def firstSeenKeys (keys : List String) : List String :=
  keys.foldl (fun acc k => if k ∈ acc then acc else acc ++ [k]) []

/-- The course key as worded by the specification (§4.2): a leading run
of decimal digits followed by optional whitespace and a dash; the digit
run, kept as text, is the key; absence of a match yields the sentinel
`UNKNOWN`. Stated independently of `courseKeyOf` for refinement. -/
def specCourseKey (title : List Char) : String :=
  let run := title.takeWhile Char.isDigit
  if run.length = 0 then "UNKNOWN"
  else if ((title.drop run.length).dropWhile isSpaceChar).headD ' ' = '-' then
    String.mk run
  else "UNKNOWN"

/-- Rewrite the end timestamp of an event, leaving every field the selection
logic reads untouched. -/
def setEnds (g : Timestamp → Timestamp) (e : Event) : Event :=
  { e with ends := g e.ends }

/-- The cluster map a list of occurrences should denote: the first-seen
keys, each paired with the feed-ordered occurrences carrying that key. -/
def groupsOf (seen : List Event) : List (String × List Event) :=
  (firstSeenKeys (seen.map (fun e => courseKeyOf e.name))).map
    (fun k => (k, seen.filter (fun e => courseKeyOf e.name = k)))

/-- The default configuration `_load_config` returns when `config.json`
is absent (src/main.py:43-52), restricted to the keys the engine reads. -/
def cfgDefault : Config :=
  { preferred_group := some "A", fallback_group_behavior := some "use_all_if_missing",
    optimization_mode := some "earliest_lesson", skip_weekends := some true }

/-- A configuration whose `fallback_group_behavior` key is absent. -/
def cfgNoFallback : Config :=
  { preferred_group := some "A", fallback_group_behavior := none,
    optimization_mode := some "earliest_lesson", skip_weekends := some true }

/-- Sample occurrence: course 5417, group A, Wednesday 13:30. -/
def sampleA1 : Event :=
  ⟨"5417 - Werkzitting".data, some ("groep A".data), none, ⟨1330, 2⟩, ⟨1500, 2⟩⟩

/-- Sample occurrence: course 5417, group A, Tuesday 09:00. -/
def sampleA2 : Event :=
  ⟨"5417 - Werkzitting vroeg".data, some ("groep A".data), none, ⟨900, 1⟩, ⟨1100, 1⟩⟩

/-- Sample occurrence: course 5417, group B, Wednesday 13:30. -/
def sampleB : Event :=
  ⟨"5417 - Werkzitting".data, some ("groep B".data), none, ⟨1330, 2⟩, ⟨1500, 2⟩⟩

/-- Sample occurrence: course 5418, label ALL, Thursday 09:00. -/
def sampleAll : Event :=
  ⟨"5418 - Wiskunde".data, some ("alle studenten".data), none, ⟨900, 3⟩, ⟨1100, 3⟩⟩

/-- Sample occurrence on a Saturday (weekday 5). -/
def sampleSat : Event :=
  ⟨"5419 - Vergadering".data, none, none, ⟨1000, 5⟩, ⟨1200, 5⟩⟩

/-- Sample malformed occurrence: its start instant exceeds its end
instant. -/
def sampleMal : Event :=
  ⟨"5417 - Werkzitting".data, none, none, ⟨1500, 2⟩, ⟨1400, 2⟩⟩

/-- Sample occurrence whose text has a letter immediately followed by
the word groep (reverse-order phrasing) and nothing else. -/
def sampleRev : Event :=
  ⟨"Agroep".data, none, none, ⟨800, 0⟩, ⟨900, 0⟩⟩

/-- Sample occurrence whose description has both a lettered group phrase
and the brace-delimited N/A token. -/
def sampleMix : Event :=
  ⟨"5417 - Werkzitting".data, some ("groep A, \x7bN/A\x7d".data), none, ⟨1330, 2⟩, ⟨1500, 2⟩⟩

/-! ### Basic lemmas about the embedded operations -/

theorem map_fst_pairs (events : List Event) :
    (events.map (fun e => (e, detect_group e))).map (fun p => p.1) = events := by
  induction events with
  | nil => rfl
  | cons e l ih => simp only [List.map_cons, ih]

theorem mem_labeled_filter {events : List Event} {lbl : String} {x : Event}
    (hx : x ∈ ((events.map (fun e => (e, detect_group e))).filter
      (fun p => p.2 = lbl)).map (fun p => p.1)) :
    x ∈ events ∧ detect_group x = lbl := by
  simp only [List.mem_map, List.mem_filter, decide_eq_true_eq] at hx
  obtain ⟨p, ⟨⟨e, he, rfl⟩, hlbl⟩, rfl⟩ := hx
  exact ⟨he, hlbl⟩

theorem labeled_filter_mem {events : List Event} {lbl : String} {e : Event}
    (he : e ∈ events) (hg : detect_group e = lbl) :
    e ∈ ((events.map (fun e => (e, detect_group e))).filter
      (fun p => p.2 = lbl)).map (fun p => p.1) := by
  simp only [List.mem_map, List.mem_filter, decide_eq_true_eq]
  exact ⟨(e, detect_group e), ⟨⟨e, he, rfl⟩, hg⟩, rfl⟩

theorem minByBegin_spec (c : Event) (cs : List Event) :
    ∃ l₁ l₂, c :: cs = l₁ ++ minByBegin c cs :: l₂ ∧
      (∀ x ∈ c :: cs, (minByBegin c cs).begin.instant ≤ x.begin.instant) ∧
      ∀ x ∈ l₁, (minByBegin c cs).begin.instant < x.begin.instant := by
  induction cs generalizing c with
  | nil =>
    refine ⟨[], [], by simp [minByBegin], ?_, by simp⟩
    intro x hx
    rw [List.mem_singleton] at hx
    simp [minByBegin, hx]
  | cons x xs ih =>
    rw [minByBegin]
    by_cases h : x.begin.instant < c.begin.instant
    · rw [if_pos h]
      obtain ⟨l₁, l₂, hdec, hmin, hstrict⟩ := ih x
      have hmx : (minByBegin x xs).begin.instant ≤ x.begin.instant :=
        hmin x (List.mem_cons_self x xs)
      refine ⟨c :: l₁, l₂, ?_, ?_, ?_⟩
      · rw [List.cons_append, ← hdec]
      · intro y hy
        rcases List.mem_cons.mp hy with rfl | hy
        · omega
        · exact hmin y hy
      · intro y hy
        rcases List.mem_cons.mp hy with rfl | hy
        · omega
        · exact hstrict y hy
    · rw [if_neg h]
      obtain ⟨l₁, l₂, hdec, hmin, hstrict⟩ := ih c
      have hmc : (minByBegin c xs).begin.instant ≤ c.begin.instant :=
        hmin c (List.mem_cons_self c xs)
      cases l₁ with
      | nil =>
        rw [List.nil_append] at hdec
        injection hdec with h1 h2
        refine ⟨[], x :: l₂, ?_, ?_, by simp⟩
        · rw [List.nil_append, ← h1, ← h2]
        · intro y hy
          rcases List.mem_cons.mp hy with rfl | hy
          · exact hmc
          rcases List.mem_cons.mp hy with rfl | hy
          · omega
          · exact hmin y (List.mem_cons_of_mem c hy)
      | cons a l₁ =>
        rw [List.cons_append] at hdec
        injection hdec with h1 h2
        have hra : (minByBegin c xs).begin.instant < a.begin.instant :=
          hstrict a (List.mem_cons_self a l₁)
        rw [← h1] at hra
        refine ⟨c :: x :: l₁, l₂, ?_, ?_, ?_⟩
        · rw [List.cons_append, List.cons_append, ← h2]
        · intro y hy
          rcases List.mem_cons.mp hy with rfl | hy
          · exact hmc
          rcases List.mem_cons.mp hy with rfl | hy
          · omega
          · exact hmin y (List.mem_cons_of_mem c hy)
        · intro y hy
          rcases List.mem_cons.mp hy with rfl | hy
          · omega
          rcases List.mem_cons.mp hy with rfl | hy
          · omega
          · exact hstrict y (List.mem_cons_of_mem a hy)

theorem maxByBegin_spec (c : Event) (cs : List Event) :
    ∃ l₁ l₂, c :: cs = l₁ ++ maxByBegin c cs :: l₂ ∧
      (∀ x ∈ c :: cs, x.begin.instant ≤ (maxByBegin c cs).begin.instant) ∧
      ∀ x ∈ l₁, x.begin.instant < (maxByBegin c cs).begin.instant := by
  induction cs generalizing c with
  | nil =>
    refine ⟨[], [], by simp [maxByBegin], ?_, by simp⟩
    intro x hx
    rw [List.mem_singleton] at hx
    simp [maxByBegin, hx]
  | cons x xs ih =>
    rw [maxByBegin]
    by_cases h : c.begin.instant < x.begin.instant
    · rw [if_pos h]
      obtain ⟨l₁, l₂, hdec, hmax, hstrict⟩ := ih x
      have hmx : x.begin.instant ≤ (maxByBegin x xs).begin.instant :=
        hmax x (List.mem_cons_self x xs)
      refine ⟨c :: l₁, l₂, ?_, ?_, ?_⟩
      · rw [List.cons_append, ← hdec]
      · intro y hy
        rcases List.mem_cons.mp hy with rfl | hy
        · omega
        · exact hmax y hy
      · intro y hy
        rcases List.mem_cons.mp hy with rfl | hy
        · omega
        · exact hstrict y hy
    · rw [if_neg h]
      obtain ⟨l₁, l₂, hdec, hmax, hstrict⟩ := ih c
      have hmc : c.begin.instant ≤ (maxByBegin c xs).begin.instant :=
        hmax c (List.mem_cons_self c xs)
      cases l₁ with
      | nil =>
        rw [List.nil_append] at hdec
        injection hdec with h1 h2
        refine ⟨[], x :: l₂, ?_, ?_, by simp⟩
        · rw [List.nil_append, ← h1, ← h2]
        · intro y hy
          rcases List.mem_cons.mp hy with rfl | hy
          · exact hmc
          rcases List.mem_cons.mp hy with rfl | hy
          · omega
          · exact hmax y (List.mem_cons_of_mem c hy)
      | cons a l₁ =>
        rw [List.cons_append] at hdec
        injection hdec with h1 h2
        have hra : a.begin.instant < (maxByBegin c xs).begin.instant :=
          hstrict a (List.mem_cons_self a l₁)
        rw [← h1] at hra
        refine ⟨c :: x :: l₁, l₂, ?_, ?_, ?_⟩
        · rw [List.cons_append, List.cons_append, ← h2]
        · intro y hy
          rcases List.mem_cons.mp hy with rfl | hy
          · exact hmc
          rcases List.mem_cons.mp hy with rfl | hy
          · omega
          · exact hmax y (List.mem_cons_of_mem c hy)
        · intro y hy
          rcases List.mem_cons.mp hy with rfl | hy
          · omega
          rcases List.mem_cons.mp hy with rfl | hy
          · omega
          · exact hstrict y (List.mem_cons_of_mem a hy)

theorem minByBegin_mem (c : Event) (cs : List Event) : minByBegin c cs ∈ c :: cs := by
  obtain ⟨l₁, l₂, hdec, -, -⟩ := minByBegin_spec c cs
  rw [hdec]
  exact List.mem_append_right l₁ (List.mem_cons_self _ _)

theorem maxByBegin_mem (c : Event) (cs : List Event) : maxByBegin c cs ∈ c :: cs := by
  obtain ⟨l₁, l₂, hdec, -, -⟩ := maxByBegin_spec c cs
  rw [hdec]
  exact List.mem_append_right l₁ (List.mem_cons_self _ _)

theorem pick_mem (m : String) (c : Event) (cs : List Event) :
    (if m = "earliest_lesson" then minByBegin c cs
     else if m = "latest_lesson" then maxByBegin c cs else c) ∈ c :: cs := by
  split_ifs
  · exact minByBegin_mem c cs
  · exact maxByBegin_mem c cs
  · exact List.mem_cons_self c cs

theorem etcf_nil (cfg : Config) : events_to_choose_from cfg [] = [] := by
  simp [events_to_choose_from]

theorem etcf_subset {cfg : Config} {events : List Event} {x : Event}
    (hx : x ∈ events_to_choose_from cfg events) : x ∈ events := by
  simp only [events_to_choose_from] at hx
  split_ifs at hx
  · exact (mem_labeled_filter hx).1
  · rw [map_fst_pairs] at hx
    exact hx
  · exact (mem_labeled_filter hx).1
  · rw [map_fst_pairs] at hx
    exact hx

theorem select_eq_of_etcf {cfg : Config} {e0 : Event} {rest : List Event}
    {c : Event} {cs : List Event}
    (hc : events_to_choose_from cfg (e0 :: rest) = c :: cs) :
    select_optimal_event cfg (e0 :: rest) =
      some (if cfg.optimizationMode = "earliest_lesson" then minByBegin c cs
        else if cfg.optimizationMode = "latest_lesson" then maxByBegin c cs
        else c) := by
  rw [select_optimal_event, hc]
  split_ifs <;> rfl

/-- **C1.** For every non-empty cluster with at least one member
classified as the preferred group, the selector returns an occurrence
classified as the preferred group, for every fallback behavior and every
optimization mode. -/
theorem C1_preference_satisfaction (cfg : Config) (events : List Event)
    (h : ∃ e ∈ events, detect_group e = cfg.preferredGroup) :
    ∃ r, select_optimal_event cfg events = some r ∧
      detect_group r = cfg.preferredGroup := by
  obtain ⟨e, he, hg⟩ := h
  obtain ⟨e0, rest, rfl⟩ : ∃ e0 rest, events = e0 :: rest := by
    cases events with
    | nil => exact absurd he (List.not_mem_nil e)
    | cons a l => exact ⟨a, l, rfl⟩
  have hne : (((e0 :: rest).map (fun e => (e, detect_group e))).filter
      (fun p => p.2 = cfg.preferredGroup)).map (fun p => p.1) ≠ [] :=
    List.ne_nil_of_mem (labeled_filter_mem he hg)
  have hP : events_to_choose_from cfg (e0 :: rest) =
      (((e0 :: rest).map (fun e => (e, detect_group e))).filter
        (fun p => p.2 = cfg.preferredGroup)).map (fun p => p.1) := by
    simp only [events_to_choose_from]
    rw [if_pos hne]
  cases hcc : events_to_choose_from cfg (e0 :: rest) with
  | nil => rw [hP] at hcc; exact absurd hcc hne
  | cons c cs =>
    refine ⟨_, select_eq_of_etcf hcc, ?_⟩
    have hmem : (if cfg.optimizationMode = "earliest_lesson" then minByBegin c cs
        else if cfg.optimizationMode = "latest_lesson" then maxByBegin c cs
        else c) ∈ c :: cs := pick_mem _ c cs
    rw [← hcc, hP] at hmem
    exact (mem_labeled_filter hmem).2

/-- Concrete application of the C1 theorem: a cluster with a group-B and
a group-A member, default policy. -/
theorem C1_preference_satisfaction_witness :
    (∃ e ∈ [sampleB, sampleA1], detect_group e = cfgDefault.preferredGroup) ∧
    ∃ r, select_optimal_event cfgDefault [sampleB, sampleA1] = some r ∧
      detect_group r = cfgDefault.preferredGroup :=
  ⟨by decide, C1_preference_satisfaction cfgDefault [sampleB, sampleA1] (by decide)⟩

theorem labeled_filter_eq_nil {events : List Event} {lbl : String}
    (h : ∀ e ∈ events, detect_group e ≠ lbl) :
    ((events.map (fun e => (e, detect_group e))).filter
      (fun p => p.2 = lbl)).map (fun p => p.1) = [] := by
  by_contra hne
  obtain ⟨x, hx⟩ := List.exists_mem_of_ne_nil _ hne
  exact h x (mem_labeled_filter hx).1 (mem_labeled_filter hx).2

/-- **C2.** For every non-empty cluster with no preferred-label member:
under `use_all_if_missing` the candidate set is the ALL-labeled members
(so an ALL-labeled occurrence is selected whenever one exists) and only
when no ALL-labeled member exists does the candidate set become all
members; under `use_any_if_missing` the candidate set is all members
immediately. -/
theorem C2_fallback_behavior (cfg : Config) (events : List Event)
    (hnp : ∀ e ∈ events, detect_group e ≠ cfg.preferredGroup) :
    (cfg.fallback_group_behavior = some "use_all_if_missing" →
      ((∃ e ∈ events, detect_group e = "ALL") →
        ∃ r, select_optimal_event cfg events = some r ∧ detect_group r = "ALL") ∧
      ((∀ e ∈ events, detect_group e ≠ "ALL") →
        events_to_choose_from cfg events = events)) ∧
    (cfg.fallback_group_behavior = some "use_any_if_missing" →
      events_to_choose_from cfg events = events) := by
  have hpref : ((events.map (fun e => (e, detect_group e))).filter
      (fun p => p.2 = cfg.preferredGroup)).map (fun p => p.1) = [] :=
    labeled_filter_eq_nil hnp
  refine ⟨fun hall => ⟨fun hex => ?_, fun hnall => ?_⟩, fun hany => ?_⟩
  · obtain ⟨e, he, hg⟩ := hex
    obtain ⟨e0, rest, rfl⟩ : ∃ e0 rest, events = e0 :: rest := by
      cases events with
      | nil => exact absurd he (List.not_mem_nil e)
      | cons a l => exact ⟨a, l, rfl⟩
    have hane : (((e0 :: rest).map (fun e => (e, detect_group e))).filter
        (fun p => p.2 = "ALL")).map (fun p => p.1) ≠ [] :=
      List.ne_nil_of_mem (labeled_filter_mem he hg)
    have hc : events_to_choose_from cfg (e0 :: rest) =
        (((e0 :: rest).map (fun e => (e, detect_group e))).filter
          (fun p => p.2 = "ALL")).map (fun p => p.1) := by
      simp only [events_to_choose_from]
      rw [if_neg (fun hcon => hcon hpref), if_pos hall, if_neg hane]
    cases hcc : events_to_choose_from cfg (e0 :: rest) with
    | nil => rw [hc] at hcc; exact absurd hcc hane
    | cons c cs =>
      refine ⟨_, select_eq_of_etcf hcc, ?_⟩
      have hmem := pick_mem cfg.optimizationMode c cs
      rw [← hcc, hc] at hmem
      exact (mem_labeled_filter hmem).2
  · have hanil : ((events.map (fun e => (e, detect_group e))).filter
        (fun p => p.2 = "ALL")).map (fun p => p.1) = [] :=
      labeled_filter_eq_nil hnall
    simp only [events_to_choose_from]
    rw [if_neg (fun hcon => hcon hpref), if_pos hall, if_pos hanil, map_fst_pairs]
  · simp only [events_to_choose_from]
    rw [if_neg (fun hcon => hcon hpref), if_neg (by rw [hany]; simp), map_fst_pairs]

/-- Concrete application of the C2 theorem: a cluster with a group-B and
an ALL member, no group-A member, default policy. -/
theorem C2_fallback_behavior_witness :
    (∀ e ∈ [sampleB, sampleAll], detect_group e ≠ cfgDefault.preferredGroup) ∧
    ∃ r, select_optimal_event cfgDefault [sampleB, sampleAll] = some r ∧
      detect_group r = "ALL" :=
  ⟨by decide, ((C2_fallback_behavior cfgDefault [sampleB, sampleAll]
    (by decide)).1 rfl).1 ⟨sampleAll, by decide, by decide⟩⟩

/-- **C3.** For every candidate set produced by the preference and
fallback steps: under `earliest_lesson` the selector returns the first
candidate attaining the minimal start, under `latest_lesson` the first
candidate attaining the maximal start, and under any other mode the
first candidate in candidate-set order (stable selection). -/
theorem C3_tie_break (cfg : Config) (events : List Event) (c : Event) (cs : List Event)
    (hc : events_to_choose_from cfg events = c :: cs) :
    (cfg.optimizationMode = "earliest_lesson" →
      ∃ r l₁ l₂, select_optimal_event cfg events = some r ∧
        c :: cs = l₁ ++ r :: l₂ ∧
        (∀ x ∈ c :: cs, r.begin.instant ≤ x.begin.instant) ∧
        ∀ x ∈ l₁, r.begin.instant < x.begin.instant) ∧
    (cfg.optimizationMode = "latest_lesson" →
      ∃ r l₁ l₂, select_optimal_event cfg events = some r ∧
        c :: cs = l₁ ++ r :: l₂ ∧
        (∀ x ∈ c :: cs, x.begin.instant ≤ r.begin.instant) ∧
        ∀ x ∈ l₁, x.begin.instant < r.begin.instant) ∧
    (cfg.optimizationMode ≠ "earliest_lesson" →
      cfg.optimizationMode ≠ "latest_lesson" →
      select_optimal_event cfg events = some c) := by
  obtain ⟨e0, rest, rfl⟩ : ∃ e0 rest, events = e0 :: rest := by
    cases events with
    | nil => rw [etcf_nil] at hc; exact absurd hc.symm (List.cons_ne_nil c cs)
    | cons a l => exact ⟨a, l, rfl⟩
  have hsel := select_eq_of_etcf hc
  refine ⟨fun hm => ?_, fun hm => ?_, fun h1 h2 => ?_⟩
  · rw [hm, if_pos rfl] at hsel
    obtain ⟨l₁, l₂, hdec, hmin, hstrict⟩ := minByBegin_spec c cs
    exact ⟨minByBegin c cs, l₁, l₂, hsel, hdec, hmin, hstrict⟩
  · rw [hm, if_neg (by decide), if_pos rfl] at hsel
    obtain ⟨l₁, l₂, hdec, hmax, hstrict⟩ := maxByBegin_spec c cs
    exact ⟨maxByBegin c cs, l₁, l₂, hsel, hdec, hmax, hstrict⟩
  · rw [if_neg h1, if_neg h2] at hsel
    exact hsel

/-- Concrete application of the C3 theorem: two group-A candidates, the
later one first in candidate order, earliest-lesson mode. -/
theorem C3_tie_break_witness :
    events_to_choose_from cfgDefault [sampleA1, sampleA2] = sampleA1 :: [sampleA2] ∧
    ∃ r l₁ l₂, select_optimal_event cfgDefault [sampleA1, sampleA2] = some r ∧
      sampleA1 :: [sampleA2] = l₁ ++ r :: l₂ ∧
      (∀ x ∈ sampleA1 :: [sampleA2], r.begin.instant ≤ x.begin.instant) ∧
      ∀ x ∈ l₁, r.begin.instant < x.begin.instant :=
  ⟨by decide,
    (C3_tie_break cfgDefault [sampleA1, sampleA2] sampleA1 [sampleA2] (by decide)).1 rfl⟩

/-- **C5 counterexample.** Invoked on an empty cluster, the selector
returns the `None` sentinel as an ordinary value; no `EmptyClusterError`
is raised (none exists in the code). -/
theorem C5_counterexample_empty_returns_none :
    select_optimal_event cfgDefault [] = none := rfl

/-- **C5 (amended).** The selector is total: it returns `None` exactly
on the empty list (rather than failing with an `EmptyClusterError`,
which the code does not define), and on a non-empty list it returns a
member of the list. -/
theorem C5_selector_total (cfg : Config) (events : List Event) :
    (select_optimal_event cfg events = none ↔ events = []) ∧
    ∀ r, select_optimal_event cfg events = some r → r ∈ events := by
  constructor
  · constructor
    · intro h
      cases events with
      | nil => rfl
      | cons e0 rest =>
        exfalso
        rw [select_optimal_event] at h
        cases hcc : events_to_choose_from cfg (e0 :: rest) with
        | nil => rw [hcc] at h; exact Option.noConfusion h
        | cons c cs =>
          rw [hcc] at h
          split_ifs at h
    · intro h
      rw [h]
      rfl
  · intro r hr
    cases events with
    | nil => exact Option.noConfusion hr
    | cons e0 rest =>
      rw [select_optimal_event] at hr
      cases hcc : events_to_choose_from cfg (e0 :: rest) with
      | nil =>
        rw [hcc] at hr
        injection hr with h
        rw [← h]
        exact List.mem_cons_self e0 rest
      | cons c cs =>
        rw [hcc] at hr
        have hrm : r ∈ events_to_choose_from cfg (e0 :: rest) := by
          rw [hcc]
          split_ifs at hr
          · injection hr with h; rw [← h]; exact minByBegin_mem c cs
          · injection hr with h; rw [← h]; exact maxByBegin_mem c cs
          · injection hr with h; rw [← h]; exact List.mem_cons_self c cs
        exact etcf_subset hrm

/-- Concrete application of the C5 amended theorem on a singleton
cluster. -/
theorem C5_selector_total_witness :
    select_optimal_event cfgDefault [sampleB] = some sampleB ∧ sampleB ∈ [sampleB] :=
  ⟨by decide, (C5_selector_total cfgDefault [sampleB]).2 sampleB (by decide)⟩

/-- **C10.** When the `fallback_group_behavior` key is absent from the
configuration, a cluster without a preferred-label member falls back to
all members immediately, skipping the ALL-label sub-step: the absent key
behaves like `use_any_if_missing`, not like the documented default
`use_all_if_missing`. -/
theorem C10_missing_fallback_key (cfg : Config) (events : List Event)
    (hmiss : cfg.fallback_group_behavior = none)
    (hnp : ∀ e ∈ events, detect_group e ≠ cfg.preferredGroup) :
    events_to_choose_from cfg events = events := by
  have hpref : ((events.map (fun e => (e, detect_group e))).filter
      (fun p => p.2 = cfg.preferredGroup)).map (fun p => p.1) = [] :=
    labeled_filter_eq_nil hnp
  simp only [events_to_choose_from]
  rw [if_neg (fun hcon => hcon hpref), if_neg (by rw [hmiss]; simp), map_fst_pairs]

/-- Concrete application of the C10 theorem: with the key absent and an
ALL member present, the candidate set is all members, not the ALL
members. -/
theorem C10_missing_fallback_key_witness :
    cfgNoFallback.fallback_group_behavior = none ∧
    (∀ e ∈ [sampleB, sampleAll], detect_group e ≠ cfgNoFallback.preferredGroup) ∧
    events_to_choose_from cfgNoFallback [sampleB, sampleAll] = [sampleB, sampleAll] :=
  ⟨rfl, by decide,
    C10_missing_fallback_key cfgNoFallback [sampleB, sampleAll] rfl (by decide)⟩

/-- **C7.** Whenever the search text of an occurrence matches a letter
rule and also contains the brace-delimited N/A token, the classifier
returns a letter label and never NA, because the letter rules precede
the NA rule in the ordered table. -/
theorem C7_letter_precedes_na (e : Event)
    (hletter : ∃ c ∈ (['a', 'b', 'c', 'd', 'e'] : List Char),
      matchPat (Pat.letterPat c) (analyzedText e) = true)
    (hna : matchPat Pat.naPat (analyzedText e) = true) :
    detect_group e ≠ "NA" ∧
      detect_group e ∈ (["A", "B", "C", "D", "E"] : List String) := by
  obtain ⟨c, hc, hm⟩ := hletter
  simp only [detect_group, group_detection_rules, firstMatch]
  split_ifs with h1 h2 h3 h4 h5 h6
  · exact ⟨by decide, by decide⟩
  · exact ⟨by decide, by decide⟩
  · exact ⟨by decide, by decide⟩
  · exact ⟨by decide, by decide⟩
  · exact ⟨by decide, by decide⟩
  · exfalso
    fin_cases hc
    · exact h1 hm
    · exact h2 hm
    · exact h3 hm
    · exact h4 hm
    · exact h5 hm
  · exfalso
    fin_cases hc
    · exact h1 hm
    · exact h2 hm
    · exact h3 hm
    · exact h4 hm
    · exact h5 hm

/-- Concrete application of the C7 theorem: a description with both a
group-A phrase and the N/A token classifies as A. -/
theorem C7_letter_precedes_na_witness :
    matchPat (Pat.letterPat 'a') (analyzedText sampleMix) = true ∧
    matchPat Pat.naPat (analyzedText sampleMix) = true ∧
    detect_group sampleMix ≠ "NA" ∧
    detect_group sampleMix ∈ (["A", "B", "C", "D", "E"] : List String) :=
  ⟨by decide, by decide,
    C7_letter_precedes_na sampleMix ⟨'a', by decide, by decide⟩ (by decide)⟩

/-- **C8 counterexample.** The search text of `sampleRev` consists of a
letter immediately followed by the word groep (reverse-order phrasing)
and matches no loaded rule; the classifier returns UNKNOWN, not the
letter label A the claim predicts. -/
theorem C8_counterexample_reverse_order :
    searchPos (fun t => headEq 'a' t && isPre ("groep".data) (t.drop 1))
      (analyzedText sampleRev) = true ∧
    detect_group sampleRev ≠ "A" ∧
    detect_group sampleRev = "UNKNOWN" := by decide

/-- **C8 (amended).** The loaded rule table has no reverse-order rule:
an occurrence whose search text matches none of the seven loaded rules
— in particular one whose only group hint is a letter immediately
followed by the word group or groep — classifies as UNKNOWN, not as the
letter label. -/
theorem C8_no_rule_matches_unknown (e : Event)
    (h : ∀ r ∈ group_detection_rules, matchPat r.1 (analyzedText e) = false) :
    detect_group e = "UNKNOWN" := by
  rw [detect_group]
  have hgen : ∀ rs : List (Pat × String),
      (∀ r ∈ rs, matchPat r.1 (analyzedText e) = false) →
      firstMatch rs (analyzedText e) = "UNKNOWN" := by
    intro rs
    induction rs with
    | nil => intro _; rfl
    | cons r rest ih =>
      intro hall
      rw [firstMatch, if_neg (by simp [hall r (List.mem_cons_self r rest)])]
      exact ih fun x hx => hall x (List.mem_cons_of_mem r hx)
  exact hgen group_detection_rules h

/-- Concrete application of the C8 amended theorem at the reverse-order
sample occurrence. -/
theorem C8_no_rule_matches_unknown_witness :
    (∀ r ∈ group_detection_rules, matchPat r.1 (analyzedText sampleRev) = false) ∧
    detect_group sampleRev = "UNKNOWN" :=
  ⟨by decide, C8_no_rule_matches_unknown sampleRev (by decide)⟩

theorem dropWhile_eq_drop_length_takeWhile {α : Type} (p : α → Bool) :
    ∀ l : List α, l.dropWhile p = l.drop (l.takeWhile p).length := by
  intro l
  induction l with
  | nil => rfl
  | cons a l ih =>
    by_cases h : p a
    · simp [List.dropWhile_cons, List.takeWhile_cons, h, ih]
    · simp [List.dropWhile_cons, List.takeWhile_cons, h]

theorem headEq_dash_eq_headD (l : List Char) :
    headEq '-' l = decide (l.headD ' ' = '-') := by
  cases l with
  | nil => decide
  | cons y ys => rfl

theorem courseKeyOf_eq_spec (name : List Char) :
    courseKeyOf name = specCourseKey name := by
  simp only [courseKeyOf, specCourseKey]
  rw [dropWhile_eq_drop_length_takeWhile Char.isDigit name]
  by_cases h : name.takeWhile Char.isDigit = []
  · rw [if_pos h, if_pos (by rw [h]; rfl)]
  · rw [if_neg h, if_neg fun hl => h (List.length_eq_zero.mp hl)]
    by_cases hd : ((name.drop (name.takeWhile Char.isDigit).length).dropWhile
        isSpaceChar).headD ' ' = '-'
    · rw [if_pos (by rw [headEq_dash_eq_headD]; exact decide_eq_true hd), if_pos hd]
    · rw [if_neg (by rw [headEq_dash_eq_headD]; exact fun hc => hd (of_decide_eq_true hc)),
        if_neg hd]

/-! ### The grouper as a first-seen-keyed cluster map -/

theorem mem_foldl_fsk (l : List String) : ∀ (acc : List String) (k : String),
    (k ∈ l.foldl (fun acc k => if k ∈ acc then acc else acc ++ [k]) acc) ↔
      (k ∈ acc ∨ k ∈ l) := by
  induction l with
  | nil => intro acc k; simp
  | cons x l ih =>
    intro acc k
    rw [List.foldl_cons, ih]
    by_cases hx : x ∈ acc
    · rw [if_pos hx]
      constructor
      · rintro (h | h)
        · exact Or.inl h
        · exact Or.inr (List.mem_cons_of_mem x h)
      · rintro (h | h)
        · exact Or.inl h
        · rcases List.mem_cons.mp h with rfl | h
          · exact Or.inl hx
          · exact Or.inr h
    · rw [if_neg hx]
      constructor
      · rintro (h | h)
        · rcases List.mem_append.mp h with h | h
          · exact Or.inl h
          · rw [List.mem_singleton] at h
            exact Or.inr (h ▸ List.mem_cons_self x l)
        · exact Or.inr (List.mem_cons_of_mem x h)
      · rintro (h | h)
        · exact Or.inl (List.mem_append_left _ h)
        · rcases List.mem_cons.mp h with rfl | h
          · exact Or.inl (List.mem_append_right _ (List.mem_singleton.mpr rfl))
          · exact Or.inr h

theorem mem_firstSeenKeys (l : List String) (k : String) :
    k ∈ firstSeenKeys l ↔ k ∈ l := by
  rw [firstSeenKeys, mem_foldl_fsk]
  simp

theorem nodup_foldl_fsk (l : List String) : ∀ acc : List String, acc.Nodup →
    (l.foldl (fun acc k => if k ∈ acc then acc else acc ++ [k]) acc).Nodup := by
  induction l with
  | nil => intro acc h; exact h
  | cons x l ih =>
    intro acc h
    rw [List.foldl_cons]
    by_cases hx : x ∈ acc
    · rw [if_pos hx]
      exact ih acc h
    · rw [if_neg hx]
      refine ih _ ?_
      rw [List.nodup_append]
      exact ⟨h, List.nodup_singleton x,
        fun a ha hax => hx ((List.mem_singleton.mp hax) ▸ ha)⟩

theorem nodup_firstSeenKeys (l : List String) : (firstSeenKeys l).Nodup :=
  nodup_foldl_fsk l [] List.nodup_nil

theorem length_foldl_fsk (l : List String) : ∀ acc : List String,
    (l.foldl (fun acc k => if k ∈ acc then acc else acc ++ [k]) acc).length ≤
      acc.length + l.length := by
  induction l with
  | nil => intro acc; simp
  | cons x l ih =>
    intro acc
    rw [List.foldl_cons]
    by_cases hx : x ∈ acc
    · rw [if_pos hx]
      have := ih acc
      simp only [List.length_cons]
      omega
    · rw [if_neg hx]
      have := ih (acc ++ [x])
      simp only [List.length_append, List.length_singleton, List.length_cons,
        List.length_nil] at this ⊢
      omega

theorem length_firstSeenKeys (l : List String) :
    (firstSeenKeys l).length ≤ l.length := by
  have := length_foldl_fsk l []
  simpa using this

theorem firstSeenKeys_append_singleton (l : List String) (k : String) :
    firstSeenKeys (l ++ [k]) =
      if k ∈ firstSeenKeys l then firstSeenKeys l else firstSeenKeys l ++ [k] := by
  rw [firstSeenKeys, firstSeenKeys, List.foldl_append]
  rfl

theorem insertEvent_map_mem (A : List String) (f : String → List Event)
    (k0 : String) (e : Event) (hnd : A.Nodup) (hmem : k0 ∈ A) :
    insertEvent (A.map (fun k => (k, f k))) k0 e =
      A.map (fun k => (k, if k = k0 then f k ++ [e] else f k)) := by
  induction A with
  | nil => exact absurd hmem (List.not_mem_nil k0)
  | cons a A ih =>
    rw [List.map_cons, List.map_cons, insertEvent]
    by_cases hak : a = k0
    · subst hak
      rw [if_pos rfl, if_pos rfl]
      congr 1
      have ha : a ∉ A := (List.nodup_cons.mp hnd).1
      apply List.map_congr_left
      intro k hk
      rw [if_neg (fun h : k = a => ha (h ▸ hk))]
    · rw [if_neg hak, if_neg hak]
      congr 1
      refine ih (List.nodup_cons.mp hnd).2 ?_
      rcases List.mem_cons.mp hmem with h | h
      · exact absurd h.symm hak
      · exact h

theorem insertEvent_map_not_mem (A : List String) (f : String → List Event)
    (k0 : String) (e : Event) (hmem : k0 ∉ A) :
    insertEvent (A.map (fun k => (k, f k))) k0 e =
      A.map (fun k => (k, f k)) ++ [(k0, [e])] := by
  induction A with
  | nil => rfl
  | cons a A ih =>
    rw [List.map_cons, insertEvent]
    have hak : ¬ a = k0 := fun h => hmem (h ▸ List.mem_cons_self a A)
    rw [if_neg hak]
    congr 1
    exact ih fun h => hmem (List.mem_cons_of_mem a h)

theorem insertEvent_groupsOf (seen : List Event) (e : Event) :
    insertEvent (groupsOf seen) (courseKeyOf e.name) e = groupsOf (seen ++ [e]) := by
  rw [groupsOf, groupsOf, List.map_append, List.map_singleton,
    firstSeenKeys_append_singleton]
  by_cases h0 : courseKeyOf e.name ∈
      firstSeenKeys (seen.map (fun e => courseKeyOf e.name))
  · rw [if_pos h0, insertEvent_map_mem _ _ _ _ (nodup_firstSeenKeys _) h0]
    apply List.map_congr_left
    intro k hk
    rw [List.filter_append, List.filter_cons, List.filter_nil]
    by_cases hk0 : k = courseKeyOf e.name
    · subst hk0
      rw [if_pos rfl, if_pos (by simp)]
    · rw [if_neg hk0, if_neg (by simp; exact fun h => hk0 h.symm), List.append_nil]
  · rw [if_neg h0, insertEvent_map_not_mem _ _ _ _ h0, List.map_append,
      List.map_singleton]
    congr 1
    · apply List.map_congr_left
      intro k hk
      have hk0 : ¬ courseKeyOf e.name = k := fun h => h0 (h ▸ hk)
      rw [List.filter_append, List.filter_cons, List.filter_nil,
        if_neg (by simpa using hk0), List.append_nil]
    · have hsnil : seen.filter (fun x => courseKeyOf x.name = courseKeyOf e.name) = [] := by
        rw [List.filter_eq_nil_iff]
        intro x hx
        simp only [decide_eq_true_eq]
        intro hkey
        exact h0 ((mem_firstSeenKeys _ _).mpr (List.mem_map.mpr ⟨x, hx, hkey⟩))
      rw [List.filter_append, hsnil, List.filter_cons, List.filter_nil,
        if_pos (by simp), List.nil_append]

theorem grouper_foldl (l : List Event) : ∀ seen : List Event,
    l.foldl (fun gs e => insertEvent gs (courseKeyOf e.name) e) (groupsOf seen) =
      groupsOf (seen ++ l) := by
  induction l with
  | nil => intro seen; simp
  | cons e l ih =>
    intro seen
    rw [List.foldl_cons, insertEvent_groupsOf, ih, List.append_assoc,
      List.singleton_append]

theorem grouper_eq (events : List Event) :
    group_events_by_course events = groupsOf events := by
  have h := grouper_foldl events []
  rw [List.nil_append] at h
  calc group_events_by_course events
      = events.foldl (fun gs e => insertEvent gs (courseKeyOf e.name) e) (groupsOf []) := rfl
    _ = groupsOf events := h

/-- **C9.** The course grouper keys each occurrence by the leading digit
run of its title when followed by optional whitespace and a dash, kept
verbatim as text, with the sentinel `UNKNOWN` for every unmatched title
(one merged cluster); keys appear in first-seen order and the members of
each cluster are exactly the occurrences of the feed carrying that key,
in feed order. -/
theorem C9_course_grouper (events : List Event) :
    ((group_events_by_course events).map Prod.fst =
      firstSeenKeys (events.map (fun e => courseKeyOf e.name))) ∧
    (∀ k es, (k, es) ∈ group_events_by_course events →
      es = events.filter (fun e => courseKeyOf e.name = k)) ∧
    ∀ t : List Char, courseKeyOf t = specCourseKey t := by
  refine ⟨?_, ?_, fun t => courseKeyOf_eq_spec t⟩
  · rw [grouper_eq, groupsOf, List.map_map]
    have hcomp : (Prod.fst ∘ fun k =>
        (k, events.filter (fun e => courseKeyOf e.name = k))) = id := rfl
    rw [hcomp, List.map_id]
  · intro k es hmem
    rw [grouper_eq, groupsOf] at hmem
    obtain ⟨k0, hk0, heq⟩ := List.mem_map.mp hmem
    injection heq with h1 h2
    rw [← h2, h1]

/-- Concrete application of the C9 theorem: three occurrences, the
middle one with course code 5419, its cluster being exactly the filter
of the feed on that key. -/
theorem C9_course_grouper_witness :
    ("5419", [sampleSat]) ∈ group_events_by_course [sampleA1, sampleSat, sampleB] ∧
    [sampleSat] = [sampleA1, sampleSat, sampleB].filter
      (fun e => courseKeyOf e.name = "5419") :=
  ⟨by decide, (C9_course_grouper [sampleA1, sampleSat, sampleB]).2.1
    "5419" [sampleSat] (by decide)⟩

/-! ### The pipeline: one selection per first-seen course key -/

theorem select_isSome (cfg : Config) (e0 : Event) (rest : List Event) :
    ∃ r, select_optimal_event cfg (e0 :: rest) = some r ∧ r ∈ e0 :: rest := by
  cases hcc : events_to_choose_from cfg (e0 :: rest) with
  | nil =>
    refine ⟨e0, ?_, List.mem_cons_self e0 rest⟩
    rw [select_optimal_event, hcc]
  | cons c cs =>
    refine ⟨_, select_eq_of_etcf hcc, ?_⟩
    have hp := pick_mem cfg.optimizationMode c cs
    rw [← hcc] at hp
    exact etcf_subset hp

theorem filterMap_select_keys (cfg : Config) (A : List String) :
    ∀ f : String → List Event,
      (∀ k ∈ A, f k ≠ [] ∧ ∀ x ∈ f k, courseKeyOf x.name = k) →
      (((A.map (fun k => (k, f k))).filterMap
        (fun kg => select_optimal_event cfg kg.2)).map (fun e => courseKeyOf e.name) = A) ∧
      ∀ x ∈ (A.map (fun k => (k, f k))).filterMap
        (fun kg => select_optimal_event cfg kg.2), ∃ k ∈ A, x ∈ f k := by
  induction A with
  | nil => intro f _; exact ⟨rfl, by simp⟩
  | cons k A ih =>
    intro f h
    obtain ⟨hne, hkey⟩ := h k (List.mem_cons_self k A)
    obtain ⟨e0, rest, hfk⟩ : ∃ e0 rest, f k = e0 :: rest := by
      cases hfk : f k with
      | nil => exact absurd hfk hne
      | cons a l => exact ⟨a, l, rfl⟩
    obtain ⟨r, hr, hrm⟩ := select_isSome cfg e0 rest
    rw [← hfk] at hr hrm
    have htail := ih f fun k2 hk2 => h k2 (List.mem_cons_of_mem k hk2)
    have step : ((k :: A).map (fun k => (k, f k))).filterMap
        (fun kg => select_optimal_event cfg kg.2) =
        r :: (A.map (fun k => (k, f k))).filterMap
          (fun kg => select_optimal_event cfg kg.2) := by
      rw [List.map_cons]
      exact List.filterMap_cons_some hr
    constructor
    · rw [step, List.map_cons, htail.1, hkey r hrm]
    · intro x hx
      rw [step] at hx
      rcases List.mem_cons.mp hx with rfl | hx
      · exact ⟨k, List.mem_cons_self k A, hrm⟩
      · obtain ⟨k2, hk2, hxk⟩ := htail.2 x hx
        exact ⟨k2, List.mem_cons_of_mem k hk2, hxk⟩

/-- **C4.** For every input and policy the pipeline returns one
occurrence per distinct course key of the weekend-filtered input, in
first-seen key order: the key sequence of the output is exactly the
first-seen key sequence of the filtered input, the output length equals
the number of distinct keys and never exceeds the input length, and
every output occurrence comes from the filtered input. -/
theorem C4_pipeline_cardinality_order (cfg : Config) (events : List Event) :
    ((optimize_schedule cfg events).map (fun e => courseKeyOf e.name) =
      firstSeenKeys ((events.filter (fun e => ! should_skip_weekend cfg e)).map
        (fun e => courseKeyOf e.name))) ∧
    ((optimize_schedule cfg events).length =
      (firstSeenKeys ((events.filter (fun e => ! should_skip_weekend cfg e)).map
        (fun e => courseKeyOf e.name))).length) ∧
    (optimize_schedule cfg events).length ≤ events.length ∧
    ∀ x ∈ optimize_schedule cfg events,
      x ∈ events.filter (fun e => ! should_skip_weekend cfg e) := by
  have hopt : optimize_schedule cfg events =
      ((firstSeenKeys ((events.filter (fun e => ! should_skip_weekend cfg e)).map
          (fun e => courseKeyOf e.name))).map
        (fun k => (k, (events.filter (fun e => ! should_skip_weekend cfg e)).filter
          (fun e => courseKeyOf e.name = k)))).filterMap
        (fun kg => select_optimal_event cfg kg.2) := by
    rw [optimize_schedule, grouper_eq, groupsOf]
  have hprops : ∀ k ∈ firstSeenKeys ((events.filter
      (fun e => ! should_skip_weekend cfg e)).map (fun e => courseKeyOf e.name)),
      (events.filter (fun e => ! should_skip_weekend cfg e)).filter
        (fun e => courseKeyOf e.name = k) ≠ [] ∧
      ∀ x ∈ (events.filter (fun e => ! should_skip_weekend cfg e)).filter
        (fun e => courseKeyOf e.name = k), courseKeyOf x.name = k := by
    intro k hk
    constructor
    · rw [mem_firstSeenKeys] at hk
      obtain ⟨x, hx, hxk⟩ := List.mem_map.mp hk
      exact List.ne_nil_of_mem (List.mem_filter.mpr ⟨hx, by simp [hxk]⟩)
    · intro x hx
      have := (List.mem_filter.mp hx).2
      simpa using this
  obtain ⟨hkeys, hmem⟩ := filterMap_select_keys cfg
    (firstSeenKeys ((events.filter (fun e => ! should_skip_weekend cfg e)).map
      (fun e => courseKeyOf e.name)))
    (fun k => (events.filter (fun e => ! should_skip_weekend cfg e)).filter
      (fun e => courseKeyOf e.name = k)) hprops
  have hlen : (optimize_schedule cfg events).length =
      (firstSeenKeys ((events.filter (fun e => ! should_skip_weekend cfg e)).map
        (fun e => courseKeyOf e.name))).length := by
    have h1 : ((optimize_schedule cfg events).map
        (fun e => courseKeyOf e.name)).length =
        (firstSeenKeys ((events.filter (fun e => ! should_skip_weekend cfg e)).map
          (fun e => courseKeyOf e.name))).length := by
      rw [hopt, hkeys]
    simpa [List.length_map] using h1
  refine ⟨by rw [hopt]; exact hkeys, hlen, ?_, ?_⟩
  · calc (optimize_schedule cfg events).length
        = (firstSeenKeys ((events.filter (fun e => ! should_skip_weekend cfg e)).map
            (fun e => courseKeyOf e.name))).length := hlen
      _ ≤ ((events.filter (fun e => ! should_skip_weekend cfg e)).map
            (fun e => courseKeyOf e.name)).length := length_firstSeenKeys _
      _ = (events.filter (fun e => ! should_skip_weekend cfg e)).length := by
            rw [List.length_map]
      _ ≤ events.length := List.length_filter_le _ _
  · intro x hx
    rw [hopt] at hx
    obtain ⟨k, hk, hxk⟩ := hmem x hx
    exact (List.mem_filter.mp hxk).1

/-- Concrete application of the C4 theorem: three occurrences over two
courses plus a Saturday occurrence dropped by the weekend filter. -/
theorem C4_pipeline_cardinality_order_witness :
    optimize_schedule cfgDefault [sampleA1, sampleSat, sampleAll] = [sampleA1, sampleAll] ∧
    sampleA1 ∈ [sampleA1, sampleSat, sampleAll].filter
      (fun e => ! should_skip_weekend cfgDefault e) :=
  ⟨by decide, (C4_pipeline_cardinality_order cfgDefault
    [sampleA1, sampleSat, sampleAll]).2.2.2 sampleA1 (by decide)⟩

/-! ### The pipeline never reads end timestamps -/

theorem labeled_map_setEnds (g : Timestamp → Timestamp) (events : List Event)
    (lbl : String) :
    (((events.map (setEnds g)).map (fun e => (e, detect_group e))).filter
      (fun p => p.2 = lbl)).map (fun p => p.1) =
    (((events.map (fun e => (e, detect_group e))).filter
      (fun p => p.2 = lbl)).map (fun p => p.1)).map (setEnds g) := by
  induction events with
  | nil => rfl
  | cons e l ih =>
    simp only [List.map_cons, List.filter_cons]
    have hd : detect_group (setEnds g e) = detect_group e := rfl
    by_cases h : detect_group e = lbl
    · rw [if_pos (by simp [hd, h]), if_pos (by simp [h])]
      simp only [List.map_cons]
      rw [ih]
    · rw [if_neg (by simp [hd, h]), if_neg (by simp [h])]
      exact ih

theorem etcf_map_setEnds (cfg : Config) (g : Timestamp → Timestamp)
    (events : List Event) :
    events_to_choose_from cfg (events.map (setEnds g)) =
      (events_to_choose_from cfg events).map (setEnds g) := by
  simp only [events_to_choose_from]
  rw [labeled_map_setEnds, labeled_map_setEnds, map_fst_pairs, map_fst_pairs]
  simp only [ne_eq, List.map_eq_nil_iff]
  split_ifs <;> rfl

theorem minByBegin_map_setEnds (g : Timestamp → Timestamp) :
    ∀ (cs : List Event) (c : Event),
      minByBegin (setEnds g c) (cs.map (setEnds g)) = setEnds g (minByBegin c cs) := by
  intro cs
  induction cs with
  | nil => intro c; rfl
  | cons x xs ih =>
    intro c
    rw [List.map_cons, minByBegin, minByBegin]
    have hx : (setEnds g x).begin.instant = x.begin.instant := rfl
    have hc : (setEnds g c).begin.instant = c.begin.instant := rfl
    rw [hx, hc]
    by_cases h : x.begin.instant < c.begin.instant
    · rw [if_pos h, if_pos h]
      exact ih x
    · rw [if_neg h, if_neg h]
      exact ih c

theorem maxByBegin_map_setEnds (g : Timestamp → Timestamp) :
    ∀ (cs : List Event) (c : Event),
      maxByBegin (setEnds g c) (cs.map (setEnds g)) = setEnds g (maxByBegin c cs) := by
  intro cs
  induction cs with
  | nil => intro c; rfl
  | cons x xs ih =>
    intro c
    rw [List.map_cons, maxByBegin, maxByBegin]
    have hx : (setEnds g x).begin.instant = x.begin.instant := rfl
    have hc : (setEnds g c).begin.instant = c.begin.instant := rfl
    rw [hx, hc]
    by_cases h : c.begin.instant < x.begin.instant
    · rw [if_pos h, if_pos h]
      exact ih x
    · rw [if_neg h, if_neg h]
      exact ih c

theorem select_map_setEnds (cfg : Config) (g : Timestamp → Timestamp)
    (events : List Event) :
    select_optimal_event cfg (events.map (setEnds g)) =
      (select_optimal_event cfg events).map (setEnds g) := by
  cases events with
  | nil => rfl
  | cons e0 rest =>
    rw [List.map_cons]
    cases hcc : events_to_choose_from cfg (e0 :: rest) with
    | nil =>
      have hcc2 : events_to_choose_from cfg
          (setEnds g e0 :: rest.map (setEnds g)) = [] := by
        rw [← List.map_cons, etcf_map_setEnds, hcc]
        rfl
      have h1 : select_optimal_event cfg (setEnds g e0 :: rest.map (setEnds g)) =
          some (setEnds g e0) := by
        rw [select_optimal_event, hcc2]
      have h2 : select_optimal_event cfg (e0 :: rest) = some e0 := by
        rw [select_optimal_event, hcc]
      rw [h1, h2]
      rfl
    | cons c cs =>
      have hcc2 : events_to_choose_from cfg
          (setEnds g e0 :: rest.map (setEnds g)) =
          setEnds g c :: cs.map (setEnds g) := by
        rw [← List.map_cons, etcf_map_setEnds, hcc, List.map_cons]
      rw [select_eq_of_etcf hcc, select_eq_of_etcf hcc2]
      split_ifs
      · rw [minByBegin_map_setEnds]
        rfl
      · rw [maxByBegin_map_setEnds]
        rfl
      · rfl

theorem filter_skip_map_setEnds (cfg : Config) (g : Timestamp → Timestamp)
    (l : List Event) :
    (l.map (setEnds g)).filter (fun e => ! should_skip_weekend cfg e) =
      (l.filter (fun e => ! should_skip_weekend cfg e)).map (setEnds g) := by
  induction l with
  | nil => rfl
  | cons e l ih =>
    rw [List.map_cons, List.filter_cons, List.filter_cons]
    have hs : should_skip_weekend cfg (setEnds g e) = should_skip_weekend cfg e := rfl
    rw [hs]
    by_cases h : (! should_skip_weekend cfg e) = true
    · rw [if_pos h, if_pos h, List.map_cons, ih]
    · rw [if_neg h, if_neg h, ih]

theorem filter_key_map_setEnds (g : Timestamp → Timestamp) (k : String)
    (l : List Event) :
    (l.map (setEnds g)).filter (fun e => courseKeyOf e.name = k) =
      (l.filter (fun e => courseKeyOf e.name = k)).map (setEnds g) := by
  induction l with
  | nil => rfl
  | cons e l ih =>
    rw [List.map_cons, List.filter_cons, List.filter_cons]
    have hk : courseKeyOf (setEnds g e).name = courseKeyOf e.name := rfl
    by_cases h : courseKeyOf e.name = k
    · rw [if_pos (by simp [hk, h]), if_pos (by simp [h]), List.map_cons, ih]
    · rw [if_neg (by simp [hk, h]), if_neg (by simp [h]), ih]

theorem grouper_map_setEnds (g : Timestamp → Timestamp) (l : List Event) :
    group_events_by_course (l.map (setEnds g)) =
      (group_events_by_course l).map (fun kg => (kg.1, kg.2.map (setEnds g))) := by
  rw [grouper_eq, grouper_eq, groupsOf, groupsOf]
  have hkeys : (l.map (setEnds g)).map (fun e => courseKeyOf e.name) =
      l.map (fun e => courseKeyOf e.name) := by
    rw [List.map_map]
    apply List.map_congr_left
    intro e he
    rfl
  rw [hkeys, List.map_map]
  apply List.map_congr_left
  intro k hk
  show (k, (l.map (setEnds g)).filter (fun e => courseKeyOf e.name = k)) =
    (k, (l.filter (fun e => courseKeyOf e.name = k)).map (setEnds g))
  rw [filter_key_map_setEnds]

theorem filterMap_select_map_setEnds (cfg : Config) (g : Timestamp → Timestamp) :
    ∀ gs : List (String × List Event),
      ((gs.map (fun kg => (kg.1, kg.2.map (setEnds g)))).filterMap
        (fun kg => select_optimal_event cfg kg.2)) =
      (gs.filterMap (fun kg => select_optimal_event cfg kg.2)).map (setEnds g) := by
  intro gs
  induction gs with
  | nil => rfl
  | cons kg rest ih =>
    rw [List.map_cons]
    cases hsel : select_optimal_event cfg kg.2 with
    | none =>
      simp only [List.filterMap_cons, select_map_setEnds, hsel, Option.map_none', ih]
    | some r =>
      simp only [List.filterMap_cons, select_map_setEnds, hsel, Option.map_some',
        List.map_cons, ih]

/-- **C6 counterexample.** An input whose only occurrence has start
after end is reduced normally: the call returns with the malformed
occurrence selected, instead of aborting with a
`MalformedOccurrenceError` (no such error exists in the code, which
performs no temporal validation). -/
theorem C6_counterexample_malformed_processed :
    sampleMal.ends.instant < sampleMal.begin.instant ∧
    optimize_schedule cfgDefault [sampleMal] = [sampleMal] := by decide

/-- **C6 (amended).** The reduce call performs no temporal validation
and never aborts: no behavior depends on end timestamps at all, so an
occurrence with start after end is processed exactly like a well-formed
one — rewriting every end timestamp arbitrarily commutes with the whole
pipeline. -/
theorem C6_no_end_validation (cfg : Config) (events : List Event)
    (g : Timestamp → Timestamp) :
    optimize_schedule cfg (events.map (setEnds g)) =
      (optimize_schedule cfg events).map (setEnds g) := by
  simp only [optimize_schedule]
  rw [filter_skip_map_setEnds, grouper_map_setEnds, filterMap_select_map_setEnds]

end ScheduleOptimizer
